import Mathlib

/-!
Verification development for the Dellicius query planner
(ecclesia/lib/redfish/dellicius/engine/internal/query_planner.cc).

The definitions below are a shallow embedding of the planner source.
Stateful C++ (the handle's step iterator, the result protobuf being
mutated) is turned into explicit state passing: the iterator becomes a
numeric cursor, and the result's record map becomes an append-only log
of (subquery_id, record) pairs from which the per-id buckets are read
back by filtering.  The recursion of RunRecursive terminates in the
source because every handle kept for recursion advances its cursor,
which is bounded by its step count; the embedding makes that explicit
with a fuel argument that the entry point sets strictly above the
largest number of steps remaining.
-/

/-- Modelled from the spec: the resource view (RedfishVariant of
ecclesia/lib/redfish/interface.h, which is not under src/).  Per the
spec it is a capability set over a JSON-shaped tree: is_object,
child-by-name lookup (which may be absent), and optional iteration over
collection members (AsIterable).  AsObject() of the source is null
exactly when the node is absent or not an object. -/
inductive RedfishVariant : Type where
  | mk (isObject : Bool) (children : List (String × RedfishVariant))
      (iterableMembers : Option (List RedfishVariant))

/-- Whether AsObject() of the source returns a non-null object. -/
def RedfishVariant.isObj : RedfishVariant → Bool
  | RedfishVariant.mk b _ _ => b

/-- Members returned by AsIterable(); none models a non-iterable resource. -/
def RedfishVariant.iterableMembers : RedfishVariant → Option (List RedfishVariant)
  | RedfishVariant.mk _ _ ms => ms

/-- Child lookup, the source's var[resource_name]; none models an absent member
(for which AsObject() of the source is null). -/
def RedfishVariant.child : RedfishVariant → String → Option RedfishVariant
  | RedfishVariant.mk _ children _, name => List.lookup name children

/-- One subquery of the wire query: the fields of the proto the planner
reads (subquery_id and redpath; the property list is consumed only by
the pluggable normalizer, which the embedding takes as a function). -/
structure Subquery where
  subquery_id : String
  redpath : String
deriving DecidableEq

/-- Compiled query: query_id plus its subqueries. -/
structure DelliciusQuery where
  query_id : String
  subquery : List Subquery
deriving DecidableEq

/-- Select-all predicate handler ApplySelectAllFilter of the source. -/
def ApplySelectAllFilter : RedfishVariant → Bool := fun _ => true

/-- Predicate text kPredicateSelectAll of the source. -/
def kPredicateSelectAll : List Char := [ '*' ]

/-- First index of a character, the source's find_first_of (npos becomes none). -/
def findFirstOf (s : List Char) (c : Char) : Option Nat :=
  s.findIdx? (fun a => a = c)

/-- GetNodeAndPredicate of the source.  It only checks that both a '['
and a ']' occur somewhere in the step; the predicate is extracted with
std::string::substr(predicate_start + 1, predicate_end - predicate_start - 1),
whose count argument is computed in size_t arithmetic (wrapping modulo
2 ^ 64 when the first ']' precedes the first '[') and is clamped by
substr to the characters available after the start position. -/
def GetNodeAndPredicate (step : List Char) : Option (List Char × List Char) :=
  match findFirstOf step '[' , findFirstOf step ']' with
  | some predicateStart, some predicateEnd =>
      let count : Nat := (predicateEnd + 2 ^ 64 - (predicateStart + 1)) % 2 ^ 64
      some (step.take predicateStart, (step.drop (predicateStart + 1)).take count)
  | _, _ => none

/-- Splitter for absl::StrSplit(redpath, slash-separator): cut at every
separator character, keeping empty pieces (they are filtered afterwards
by the SkipEmpty policy). -/
def splitOnSlash : List Char → List (List Char)
  | [] => [ [] ]
  | c :: rest =>
    if c = '/' then [] :: splitOnSlash rest
    else
      match splitOnSlash rest with
      | [] => [ [ c ] ]
      | seg :: segs => (c :: seg) :: segs

/-- Step segments of a redpath: absl::StrSplit with absl::SkipEmpty. -/
def SplitSkipEmpty (s : String) : List (List Char) :=
  (splitOnSlash s.data).filter (fun seg => seg ≠ [])

/-- Runtime handle of one subquery: the compiled steps, the step
iterator iter_ (modelled as the index cursor into steps_in_redpath),
and the validity flag.  The subquery proto is carried along. -/
structure SubqueryHandle where
  subquery : Subquery
  steps_in_redpath : List (String × (RedfishVariant → Bool))
  cursor : Nat
  is_redpath_valid : Bool

/-- Step compilation loop of the SubqueryHandle constructor: each
segment must parse via GetNodeAndPredicate and its predicate text must
be kPredicateSelectAll; the first failing segment aborts compilation
(the source logs and returns, leaving is_redpath_valid_ false). -/
def compileSteps : List (List Char) → Option (List (String × (RedfishVariant → Bool)))
  | [] => some []
  | seg :: rest =>
    match GetNodeAndPredicate seg with
    | none => none
    | some node_x_predicate =>
      if node_x_predicate.2 = kPredicateSelectAll then
        match compileSteps rest with
        | some steps => some ((String.mk node_x_predicate.1, ApplySelectAllFilter) :: steps)
        | none => none
      else none

/-- Constructor SubqueryHandle::SubqueryHandle of the source: split the
redpath, compile every step, set iter_ to begin() (cursor 0) and mark
the handle valid; on any failure the handle stays invalid (the partial
step vector of the source is never observable through an invalid
handle, so it is dropped here). -/
def SubqueryHandle.ofSubquery (subquery : Subquery) : SubqueryHandle :=
  match compileSteps (SplitSkipEmpty subquery.redpath) with
  | some steps => { subquery := subquery, steps_in_redpath := steps, cursor := 0, is_redpath_valid := true }
  | none => { subquery := subquery, steps_in_redpath := [], cursor := 0, is_redpath_valid := false }

/-- NextNodeInRedpath of the source: the current step's node name when
the handle is valid.  The source returns iter_->first without a bounds
check; when the step vector is empty that read dereferences the end
iterator (see the C10 theorems), which the embedding renders as the
out-of-range lookup get? returning none. -/
def SubqueryHandle.NextNodeInRedpath (h : SubqueryHandle) : Option String :=
  if h.is_redpath_valid then (h.steps_in_redpath.get? h.cursor).map (fun st => st.1)
  else none

/-- In-bounds condition for the unchecked iter_ dereference performed by
NextNodeInRedpath (and by FilterNodeSet) on a valid handle. -/
def SubqueryHandle.currentStepReadInBounds (h : SubqueryHandle) : Prop :=
  h.is_redpath_valid = true → h.cursor < h.steps_in_redpath.length

instance (h : SubqueryHandle) : Decidable h.currentStepReadInBounds := by
  unfold SubqueryHandle.currentStepReadInBounds
  infer_instance

/-- Outcome of FilterNodeSet. -/
inductive PredicateReturnValue where
  | kContinue
  | kEndOfRedpath
  | kEndByPredicate
deriving DecidableEq

/-- FilterNodeSet of the source, returning the outcome together with the
handle state afterwards (the source mutates iter_ in place).  The
predicate of the current step is applied; on acceptance the source
stops with kEndOfRedpath when the current step's node NAME equals the
name of the last step (iter_->first == steps_in_redpath_.back().first),
and otherwise increments iter_.  An out-of-range cursor is undefined
behavior in the source (unguarded iter_ dereference) and unreachable
for the handles the planner activates; it is modelled as a drop. -/
def SubqueryHandle.FilterNodeSet (h : SubqueryHandle) (redfish_variant : RedfishVariant) :
    PredicateReturnValue × SubqueryHandle :=
  match h.steps_in_redpath.get? h.cursor with
  | none => (PredicateReturnValue.kEndByPredicate, h)
  | some step =>
    if step.2 redfish_variant = false then (PredicateReturnValue.kEndByPredicate, h)
    else
      match h.steps_in_redpath.getLast? with
      | none => (PredicateReturnValue.kContinue, { h with cursor := h.cursor + 1 })
      | some lastStep =>
        if step.1 = lastStep.1 then (PredicateReturnValue.kEndOfRedpath, h)
        else (PredicateReturnValue.kContinue, { h with cursor := h.cursor + 1 })

/-- Map from node name to the handles demanding it, NodeToSubqueryHandles
of the source; std::map iterates its keys in sorted order, so the
embedding keeps a key-sorted association list. -/
abbrev NodeToSubqueryHandles := List (String × List SubqueryHandle)

/-- Insertion of one handle under its node name, modelling
node_to_subquery[node_name].push_back(handle) on a std::map. -/
def mapInsert (m : NodeToSubqueryHandles) (n : String) (h : SubqueryHandle) :
    NodeToSubqueryHandles :=
  match m with
  | [] => [ (n, [ h ]) ]
  | (k, hs) :: rest =>
    if n = k then (k, hs ++ [ h ]) :: rest
    else if n < k then (n, [ h ]) :: (k, hs) :: rest
    else (k, hs) :: mapInsert rest n h

/-- Loop body of DeduplicateExpression: insert the handle under its
current node name; handles whose NextNodeInRedpath is nullopt are left
out. -/
def dedupStep (node_to_subquery : NodeToSubqueryHandles) (subquery_handle : SubqueryHandle) :
    NodeToSubqueryHandles :=
  match subquery_handle.NextNodeInRedpath with
  | some node_name => mapInsert node_to_subquery node_name subquery_handle
  | none => node_to_subquery

/-- DeduplicateExpression of the source: group the handles by the node
name of their current step. -/
def DeduplicateExpression (subquery_handles : List SubqueryHandle) : NodeToSubqueryHandles :=
  subquery_handles.foldl dedupStep []

/-- Node names for which Dispatch evaluates var[resource_name]: exactly
one evaluation per iteration of its loop over the deduplicated map, so
the fetched names are the map's keys. -/
def DispatchFetchedNodeNames (node_to_subquery : NodeToSubqueryHandles) : List String :=
  node_to_subquery.map (fun g => g.1)

/-- Loop body of QualifyEachSubquery over the handle vector (which the
source receives BY VALUE): every handle's FilterNodeSet runs on its own
copy; kEndOfRedpath appends the normalized record to the result log
(when the normalizer succeeds), kContinue collects the advanced handle
into qualified_subqueries, kEndByPredicate drops it. -/
def QualifyLoop {Record : Type} (normalize : RedfishVariant → Subquery → Option Record)
    (var : RedfishVariant) :
    List SubqueryHandle → List (String × Record) × List SubqueryHandle
  | [] => ([], [])
  | subquery_handle :: rest =>
    let r := QualifyLoop normalize var rest
    match subquery_handle.FilterNodeSet var with
    | (PredicateReturnValue.kEndOfRedpath, _) =>
      match normalize var subquery_handle.subquery with
      | some normalized_data =>
        ((subquery_handle.subquery.subquery_id, normalized_data) :: r.1, r.2)
      | none => r
    | (PredicateReturnValue.kContinue, advanced) => (r.1, advanced :: r.2)
    | (PredicateReturnValue.kEndByPredicate, _) => r

/-- QualifyEachSubquery of the source: run the loop, then recurse into
the qualified handles unless none survived.  The recursion callback is
RunRecursive at the next fuel level. -/
def QualifyEachSubquery {Record : Type} (normalize : RedfishVariant → Subquery → Option Record)
    (recurse : RedfishVariant → List SubqueryHandle → List (String × Record))
    (var : RedfishVariant) (handles : List SubqueryHandle) : List (String × Record) :=
  let r := QualifyLoop normalize var handles
  if r.2.isEmpty then r.1 else r.1 ++ recurse var r.2

/-- Member loop of Dispatch for an iterable child: each member of the
collection is qualified against the group's handles (the handle vector
is passed by value again, so every member starts from the same handle
states). -/
def QualifyCollection {Record : Type} (normalize : RedfishVariant → Subquery → Option Record)
    (recurse : RedfishVariant → List SubqueryHandle → List (String × Record))
    (handles : List SubqueryHandle) : List RedfishVariant → List (String × Record)
  | [] => []
  | member :: rest =>
    QualifyEachSubquery normalize recurse member handles
      ++ QualifyCollection normalize recurse handles rest

/-- Dispatch of the source: for each (resource_name, handles) group of
the deduplicated map, evaluate var[resource_name] once; skip the group
when AsObject() is null (absent child or non-object child); otherwise
qualify each member when the child is iterable, else qualify the child
itself. -/
def Dispatch {Record : Type} (normalize : RedfishVariant → Subquery → Option Record)
    (recurse : RedfishVariant → List SubqueryHandle → List (String × Record))
    (var : RedfishVariant) : NodeToSubqueryHandles → List (String × Record)
  | [] => []
  | (resource_name, handles) :: rest =>
    (match var.child resource_name with
     | none => []
     | some variant =>
       if variant.isObj = false then []
       else
         match variant.iterableMembers with
         | some collection => QualifyCollection normalize recurse handles collection
         | none => QualifyEachSubquery normalize recurse variant handles)
      ++ Dispatch normalize recurse var rest

/-- RunRecursive of the source: deduplicate, stop when no handle demands
a node, otherwise Dispatch.  The fuel argument makes the recursion
depth explicit; the entry point supplies fuel strictly above the
largest number of steps any handle still has to take, which the source
recursion never exceeds because every surviving handle has advanced its
cursor. -/
def RunRecursive {Record : Type} (normalize : RedfishVariant → Subquery → Option Record) :
    Nat → RedfishVariant → List SubqueryHandle → List (String × Record)
  | 0, _, _ => []
  | Nat.succ fuel, variant, subquery_handles =>
    let node_to_subquery := DeduplicateExpression subquery_handles
    if node_to_subquery.isEmpty then []
    else Dispatch normalize (fun v hs => RunRecursive normalize fuel v hs) variant node_to_subquery

/-- Steps a handle still has to take. -/
def stepsRemaining (h : SubqueryHandle) : Nat :=
  h.steps_in_redpath.length - h.cursor

/-- Largest number of steps remaining over a handle list. -/
def maxStepsRemaining (hs : List SubqueryHandle) : Nat :=
  hs.foldr (fun h acc => max (stepsRemaining h) acc) 0

/-- Result of one execution, DelliciusQueryResult of the source: query
ids, the two timestamps, and the record map modelled as the append-only
emission log (subquery_output_by_id buckets are read back by id). -/
structure DelliciusQueryResult (Record : Type) where
  query_ids : List String
  start_timestamp : Option Int
  end_timestamp : Option Int
  subquery_output : List (String × Record)
deriving DecidableEq

/-- Bucket of records for one subquery id: the entries appended under
that id, in emission order (protobuf map values are repeated fields
that keep append order). -/
def DelliciusQueryResult.outputById {Record : Type} (result : DelliciusQueryResult Record)
    (id : String) : List Record :=
  (result.subquery_output.filter (fun e => e.1 = id)).map (fun e => e.2)

/-- Planner state: plan id and the active subquery handles. -/
structure QueryPlanner where
  plan_id : String
  subquery_handles : List SubqueryHandle

/-- Constructor QueryPlanner::QueryPlanner of the source: compile a
handle per subquery and keep only those whose NextNodeInRedpath is not
nullopt. -/
def QueryPlanner.ofQuery (query : DelliciusQuery) : QueryPlanner :=
  { plan_id := query.query_id
    subquery_handles :=
      (query.subquery.map SubqueryHandle.ofSubquery).filter
        (fun subquery_handle => subquery_handle.NextNodeInRedpath.isSome) }

/-- Run of the source: stamp the start time, record the plan id, drive
the recursion from the root, stamp the end time.  The injected clock is
modelled as the sequence of Now() results (called at index 0 and 1);
AbslTimeToProtoTime is modelled as always succeeding. -/
def QueryPlanner.Run {Record : Type} (p : QueryPlanner)
    (normalize : RedfishVariant → Subquery → Option Record)
    (variant : RedfishVariant) (clock : Nat → Int) : DelliciusQueryResult Record :=
  { query_ids := [ p.plan_id ]
    start_timestamp := some (clock 0)
    end_timestamp := some (clock 1)
    subquery_output :=
      RunRecursive normalize (maxStepsRemaining p.subquery_handles + 1) variant
        p.subquery_handles }

/-!
Theorems settling the claims, with shared helper lemmas first.
-/

/-- Helper: a handle with a next node is valid. -/
theorem nextNode_isSome_valid (h : SubqueryHandle) :
    h.NextNodeInRedpath.isSome = true → h.is_redpath_valid = true := by
  unfold SubqueryHandle.NextNodeInRedpath
  split
  · intro _; assumption
  · intro hc; simp at hc

/-- Helper: a handle with a next node has its cursor strictly inside its step list. -/
theorem nextNode_isSome_cursor_lt (h : SubqueryHandle) :
    h.NextNodeInRedpath.isSome = true → h.cursor < h.steps_in_redpath.length := by
  unfold SubqueryHandle.NextNodeInRedpath
  split
  · intro hs
    cases hg : h.steps_in_redpath.get? h.cursor with
    | none => rw [hg] at hs; simp at hs
    | some st => exact (List.get?_eq_some.mp hg).choose
  · intro hc; simp at hc

/-- C9: execute is deterministic: the result depends only on the compiled query, the
normalizer and the resource view; two runs differing only in the injected clock agree
on the query ids, on the whole emission log, and on every per-id record bucket (record
lists in the same order); only the timestamps can differ. -/
theorem C9_run_deterministic : ∀ (Record : Type) (q : DelliciusQuery)
    (normalize : RedfishVariant → Subquery → Option Record) (v : RedfishVariant)
    (c1 c2 : Nat → Int),
    ((QueryPlanner.ofQuery q).Run normalize v c1).query_ids
        = ((QueryPlanner.ofQuery q).Run normalize v c2).query_ids
      ∧ ((QueryPlanner.ofQuery q).Run normalize v c1).subquery_output
        = ((QueryPlanner.ofQuery q).Run normalize v c2).subquery_output
      ∧ ∀ id, ((QueryPlanner.ofQuery q).Run normalize v c1).outputById id
        = ((QueryPlanner.ofQuery q).Run normalize v c2).outputById id := by
  intro Record q normalize v c1 c2
  exact ⟨rfl, rfl, fun _ => rfl⟩

/-- C1: refuted on the source (code bug).  For the redpath of two steps sharing a node
name, built from the failing input subquery (s1, /A[*]/A[*]), FilterNodeSet at cursor 0
(predicate accepting) returns kEndOfRedpath although the cursor is at the first of two
steps: the source decides end-of-path by comparing the current step's NAME with the last
step's name (iter_->first == steps_in_redpath_.back().first) instead of the cursor
position, so the claimed equivalence with being at the last step fails. -/
theorem C1_end_of_path_at_nonlast_step :
    ((SubqueryHandle.ofSubquery ⟨ "s1", "/A[*]/A[*]"⟩).FilterNodeSet
        (RedfishVariant.mk true [] none)).1 = PredicateReturnValue.kEndOfRedpath
      ∧ (SubqueryHandle.ofSubquery ⟨ "s1", "/A[*]/A[*]"⟩).cursor = 0
      ∧ (SubqueryHandle.ofSubquery ⟨ "s1", "/A[*]/A[*]"⟩).steps_in_redpath.length = 2
      ∧ ((SubqueryHandle.ofSubquery ⟨ "s1", "/A[*]/A[*]"⟩).FilterNodeSet
        (RedfishVariant.mk true [] none)).2.cursor = 0 := by
  exact ⟨by decide, by decide, by decide, by decide⟩

/-- C10: refuted on the source (code bug).  For a subquery whose redpath splits into
zero steps (the empty redpath), the constructed handle is marked valid with an empty
step vector, so the read iter_->first performed by NextNodeInRedpath (which the
QueryPlanner constructor invokes on every handle) dereferences the end iterator: the
current-step access is out of bounds. -/
theorem C10_next_node_read_out_of_bounds :
    (SubqueryHandle.ofSubquery ⟨ "s", ""⟩).is_redpath_valid = true
      ∧ (SubqueryHandle.ofSubquery ⟨ "s", ""⟩).steps_in_redpath.length = 0
      ∧ ¬ (SubqueryHandle.ofSubquery ⟨ "s", ""⟩).currentStepReadInBounds := by
  exact ⟨by decide, by decide, by decide⟩

/-- C2 counterexample: the step segment means of the subquery (s, ]a[*) has its first
']' at index 0 and its first '[' at index 2, violating the claimed bracket-order
requirement, yet path compilation accepts it: the handle is valid (with node name ]a)
and the planner keeps it in its active set. -/
theorem C2_counterexample :
    findFirstOf (String.data "]a[*") ']' = some 0
      ∧ findFirstOf (String.data "]a[*") '[' = some 2
      ∧ (SubqueryHandle.ofSubquery ⟨ "s", "]a[*"⟩).is_redpath_valid = true
      ∧ (QueryPlanner.ofQuery ⟨ "q", [ ⟨ "s", "]a[*"⟩ ] ⟩).subquery_handles.length = 1 := by
  exact ⟨by decide, by decide, by decide, by rfl⟩

/-- C5: qualifying the members of a collection is memberwise: every sibling member is
qualified against the same handle list (the handle vector the source passes BY VALUE
when the collection was entered), so advancing or dropping a handle while qualifying
one member cannot change the handle state any sibling member starts from. -/
theorem C5_sibling_members_independent : ∀ (Record : Type)
    (normalize : RedfishVariant → Subquery → Option Record)
    (recurse : RedfishVariant → List SubqueryHandle → List (String × Record))
    (handles : List SubqueryHandle) (members : List RedfishVariant),
    QualifyCollection normalize recurse handles members
      = (members.map (fun member => QualifyEachSubquery normalize recurse member handles)).flatten := by
  intro Record normalize recurse handles members
  induction members with
  | nil => rfl
  | cons member rest ih => simp [QualifyCollection, ih]

/-- Sorted insertion that mapInsert performs on the key list. -/
def insertKey : List String → String → List String
  | [], n => [ n ]
  | k :: rest, n =>
    if n = k then k :: rest
    else if n < k then n :: k :: rest
    else k :: insertKey rest n

/-- Helper: key list of the empty map. -/
theorem keys_nil : DispatchFetchedNodeNames [] = [] := rfl

/-- Helper: key list of a map cell. -/
theorem keys_cons (g : String × List SubqueryHandle) (m : NodeToSubqueryHandles) :
    DispatchFetchedNodeNames (g :: m) = g.1 :: DispatchFetchedNodeNames m := rfl

/-- Helper: mapInsert acts on the key list as insertKey. -/
theorem mapInsert_keys : ∀ (m : NodeToSubqueryHandles) (n : String) (h : SubqueryHandle),
    DispatchFetchedNodeNames (mapInsert m n h) = insertKey (DispatchFetchedNodeNames m) n := by
  intro m n h
  induction m with
  | nil => rfl
  | cons g rest ih =>
    obtain ⟨k, ks⟩ := g
    by_cases h1 : n = k
    · simp [mapInsert, insertKey, DispatchFetchedNodeNames, h1]
    · by_cases h2 : n < k
      · simp [mapInsert, insertKey, DispatchFetchedNodeNames, h1, h2]
      · simp only [DispatchFetchedNodeNames] at ih
        simp [mapInsert, insertKey, DispatchFetchedNodeNames, h1, h2, ih]

/-- Helper: membership after a sorted key insertion. -/
theorem insertKey_mem : ∀ (l : List String) (n a : String),
    a ∈ insertKey l n ↔ a = n ∨ a ∈ l := by
  intro l n a
  induction l with
  | nil => simp [insertKey]
  | cons k rest ih =>
    by_cases h1 : n = k
    · subst h1
      rw [insertKey, if_pos rfl]
      simp only [List.mem_cons]
      tauto
    · by_cases h2 : n < k
      · rw [insertKey, if_neg h1, if_pos h2]
        simp only [List.mem_cons]
      · rw [insertKey, if_neg h1, if_neg h2]
        simp only [List.mem_cons, ih]
        tauto

/-- Helper: sorted key insertion keeps the key list strictly sorted. -/
theorem insertKey_sorted : ∀ (l : List String) (n : String),
    l.Sorted (· < ·) → (insertKey l n).Sorted (· < ·) := by
  intro l n hl
  induction l with
  | nil => simp [insertKey]
  | cons k rest ih =>
    rw [List.sorted_cons] at hl
    by_cases h1 : n = k
    · subst h1
      rw [insertKey, if_pos rfl]
      exact List.sorted_cons.mpr hl
    · by_cases h2 : n < k
      · rw [insertKey, if_neg h1, if_pos h2]
        refine List.sorted_cons.mpr ⟨?_, List.sorted_cons.mpr hl⟩
        intro b hb
        rcases List.mem_cons.mp hb with rfl | hbl
        · exact h2
        · exact lt_trans h2 (hl.1 b hbl)
      · rw [insertKey, if_neg h1, if_neg h2]
        refine List.sorted_cons.mpr ⟨?_, ih hl.2⟩
        intro b hb
        rcases (insertKey_mem rest n b).mp hb with rfl | hbl
        · exact lt_of_le_of_ne (not_lt.mp h2) fun e => h1 e.symm
        · exact hl.1 b hbl

/-- Helper: sorted key insertion grows the key list by at most one. -/
theorem insertKey_length : ∀ (l : List String) (n : String),
    (insertKey l n).length ≤ l.length + 1 := by
  intro l n
  induction l with
  | nil => simp [insertKey]
  | cons k rest ih =>
    by_cases h1 : n = k
    · rw [insertKey, if_pos h1]
      simp
    · by_cases h2 : n < k
      · rw [insertKey, if_neg h1, if_pos h2]
        simp
      · rw [insertKey, if_neg h1, if_neg h2]
        simp only [List.length_cons]
        exact Nat.succ_le_succ ih

/-- Helper: membership in the deduplication fold's key list. -/
theorem dedup_foldl_keys_mem : ∀ (hs : List SubqueryHandle) (m : NodeToSubqueryHandles)
    (a : String),
    a ∈ DispatchFetchedNodeNames (hs.foldl dedupStep m)
      ↔ a ∈ DispatchFetchedNodeNames m ∨ ∃ h ∈ hs, h.NextNodeInRedpath = some a := by
  intro hs
  induction hs with
  | nil => simp
  | cons h rest ih =>
    intro m a
    rw [List.foldl_cons, ih]
    cases hn : h.NextNodeInRedpath with
    | none =>
      simp only [dedupStep, hn, List.mem_cons]
      constructor
      · rintro (hm | ⟨h2, hh2, ha⟩)
        · exact Or.inl hm
        · exact Or.inr ⟨h2, Or.inr hh2, ha⟩
      · rintro (hm | ⟨h2, hh2, ha⟩)
        · exact Or.inl hm
        · rcases hh2 with rfl | hh2
          · rw [hn] at ha
            cases ha
          · exact Or.inr ⟨h2, hh2, ha⟩
    | some n =>
      simp only [dedupStep, hn, mapInsert_keys, insertKey_mem, List.mem_cons]
      constructor
      · rintro (h0 | ⟨h2, hh2, ha⟩)
        · rcases h0 with rfl | hm
          · exact Or.inr ⟨h, Or.inl rfl, hn⟩
          · exact Or.inl hm
        · exact Or.inr ⟨h2, Or.inr hh2, ha⟩
      · rintro (hm | ⟨h2, hh2, ha⟩)
        · exact Or.inl (Or.inr hm)
        · rcases hh2 with rfl | hh2
          · rw [hn] at ha
            exact Or.inl (Or.inl (Option.some_inj.mp ha).symm)
          · exact Or.inr ⟨h2, hh2, ha⟩

/-- Helper: the deduplication fold keeps the key list strictly sorted. -/
theorem dedup_foldl_keys_sorted : ∀ (hs : List SubqueryHandle) (m : NodeToSubqueryHandles),
    (DispatchFetchedNodeNames m).Sorted (· < ·) →
    (DispatchFetchedNodeNames (hs.foldl dedupStep m)).Sorted (· < ·) := by
  intro hs
  induction hs with
  | nil => intro m hm; simpa using hm
  | cons h rest ih =>
    intro m hm
    rw [List.foldl_cons]
    refine ih _ ?_
    cases hn : h.NextNodeInRedpath with
    | none => simpa [dedupStep, hn] using hm
    | some n =>
      simp only [dedupStep, hn, mapInsert_keys]
      exact insertKey_sorted _ n hm

/-- Helper: the deduplication fold's key list grows by at most the handle count. -/
theorem dedup_foldl_keys_length : ∀ (hs : List SubqueryHandle) (m : NodeToSubqueryHandles),
    (DispatchFetchedNodeNames (hs.foldl dedupStep m)).length
      ≤ (DispatchFetchedNodeNames m).length + hs.length := by
  intro hs
  induction hs with
  | nil => simp
  | cons h rest ih =>
    intro m
    rw [List.foldl_cons]
    refine le_trans (ih _) ?_
    cases hn : h.NextNodeInRedpath with
    | none =>
      simp only [dedupStep, hn, List.length_cons]
      omega
    | some n =>
      simp only [dedupStep, hn, mapInsert_keys, List.length_cons]
      have := insertKey_length (DispatchFetchedNodeNames m) n
      omega

/-- C3: within one recursion step, Dispatch evaluates var[resource_name] once per key
of the deduplicated map, and those keys are exactly the distinct current step names of
the active handles: the fetched-name list has no duplicates, contains precisely the
demanded names, has length equal to the number of distinct demanded names, and is
bounded by the number of active handles (one fetch per distinct name, not per handle). -/
theorem C3_one_fetch_per_distinct_name : ∀ (subquery_handles : List SubqueryHandle),
    (DispatchFetchedNodeNames (DeduplicateExpression subquery_handles)).Nodup
      ∧ (∀ a, a ∈ DispatchFetchedNodeNames (DeduplicateExpression subquery_handles)
          ↔ ∃ h ∈ subquery_handles, h.NextNodeInRedpath = some a)
      ∧ (DispatchFetchedNodeNames (DeduplicateExpression subquery_handles)).length
          = ((subquery_handles.filterMap SubqueryHandle.NextNodeInRedpath).dedup).length
      ∧ (DispatchFetchedNodeNames (DeduplicateExpression subquery_handles)).length
          ≤ subquery_handles.length := by
  intro hs
  have hsorted : (DispatchFetchedNodeNames (DeduplicateExpression hs)).Sorted (· < ·) := by
    unfold DeduplicateExpression
    exact dedup_foldl_keys_sorted hs [] (by simp [keys_nil])
  have hnodup : (DispatchFetchedNodeNames (DeduplicateExpression hs)).Nodup :=
    hsorted.nodup
  have hmem : ∀ a, a ∈ DispatchFetchedNodeNames (DeduplicateExpression hs)
      ↔ ∃ h ∈ hs, h.NextNodeInRedpath = some a := by
    intro a
    unfold DeduplicateExpression
    rw [dedup_foldl_keys_mem hs [] a]
    simp [keys_nil]
  refine ⟨hnodup, hmem, ?_, ?_⟩
  · have hperm : (DispatchFetchedNodeNames (DeduplicateExpression hs)).Perm
        ((hs.filterMap SubqueryHandle.NextNodeInRedpath).dedup) := by
      rw [List.perm_ext_iff_of_nodup hnodup (List.nodup_dedup _)]
      intro a
      rw [hmem a, List.mem_dedup, List.mem_filterMap]
    exact hperm.length_eq
  · have := dedup_foldl_keys_length hs []
    simpa [DeduplicateExpression, keys_nil] using this

/-- C3 witness: two handles sharing the prefix node A produce a duplicate-free fetched
name list whose length stays at or below the handle count two. -/
theorem C3_one_fetch_per_distinct_name_witness :
    (DispatchFetchedNodeNames (DeduplicateExpression
        [ SubqueryHandle.ofSubquery ⟨ "a", "/A[*]/B[*]"⟩,
          SubqueryHandle.ofSubquery ⟨ "b", "/A[*]"⟩ ])).Nodup
      ∧ (DispatchFetchedNodeNames (DeduplicateExpression
        [ SubqueryHandle.ofSubquery ⟨ "a", "/A[*]/B[*]"⟩,
          SubqueryHandle.ofSubquery ⟨ "b", "/A[*]"⟩ ])).length
          ≤ 2 := by
  refine ⟨(C3_one_fetch_per_distinct_name _).1, ?_⟩
  exact (C3_one_fetch_per_distinct_name
    [ SubqueryHandle.ofSubquery ⟨ "a", "/A[*]/B[*]"⟩,
      SubqueryHandle.ofSubquery ⟨ "b", "/A[*]"⟩ ]).2.2.2

/-- Helper: a handle found in a group after one map insertion was in the map already or
is the inserted handle. -/
theorem mapInsert_groups_mem : ∀ (m : NodeToSubqueryHandles) (n : String) (x : SubqueryHandle)
    (g : String × List SubqueryHandle), g ∈ mapInsert m n x → ∀ h ∈ g.2,
    (∃ g0 ∈ m, h ∈ g0.2) ∨ h = x := by
  intro m n x
  induction m with
  | nil =>
    intro g hg h hh
    simp only [mapInsert, List.mem_singleton] at hg
    subst hg
    exact Or.inr (List.mem_singleton.mp hh)
  | cons g0 rest ih =>
    obtain ⟨k, ks⟩ := g0
    intro g hg h hh
    by_cases h1 : n = k
    · simp only [mapInsert, if_pos h1] at hg
      rcases List.mem_cons.mp hg with rfl | hgr
      · rcases List.mem_append.mp hh with hks | hx
        · exact Or.inl ⟨(k, ks), List.mem_cons_self _ _, hks⟩
        · exact Or.inr (List.mem_singleton.mp hx)
      · exact Or.inl ⟨g, List.mem_cons_of_mem _ hgr, hh⟩
    · by_cases h2 : n < k
      · simp only [mapInsert, if_neg h1, if_pos h2] at hg
        rcases List.mem_cons.mp hg with rfl | hg2
        · exact Or.inr (List.mem_singleton.mp hh)
        · rcases List.mem_cons.mp hg2 with rfl | hg3
          · exact Or.inl ⟨(k, ks), List.mem_cons_self _ _, hh⟩
          · exact Or.inl ⟨g, List.mem_cons_of_mem _ hg3, hh⟩
      · simp only [mapInsert, if_neg h1, if_neg h2] at hg
        rcases List.mem_cons.mp hg with rfl | hg2
        · exact Or.inl ⟨(k, ks), List.mem_cons_self _ _, hh⟩
        · rcases ih g hg2 h hh with ⟨g1, hg1, hh1⟩ | hx
          · exact Or.inl ⟨g1, List.mem_cons_of_mem _ hg1, hh1⟩
          · exact Or.inr hx

/-- Helper: a handle found in a group of the deduplication fold came from the initial
map or is one of the folded handles with a demanded next node. -/
theorem dedup_foldl_groups_mem : ∀ (hs : List SubqueryHandle) (m : NodeToSubqueryHandles)
    (g : String × List SubqueryHandle), g ∈ hs.foldl dedupStep m → ∀ h ∈ g.2,
    (∃ g0 ∈ m, h ∈ g0.2) ∨ (h ∈ hs ∧ h.NextNodeInRedpath.isSome = true) := by
  intro hs
  induction hs with
  | nil =>
    intro m g hg h hh
    exact Or.inl ⟨g, hg, hh⟩
  | cons h0 rest ih =>
    intro m g hg h hh
    rw [List.foldl_cons] at hg
    rcases ih (dedupStep m h0) g hg h hh with ⟨g0, hg0, hh0⟩ | ⟨hmem, hsome⟩
    · cases hn : h0.NextNodeInRedpath with
      | none =>
        simp only [dedupStep, hn] at hg0
        exact Or.inl ⟨g0, hg0, hh0⟩
      | some n =>
        simp only [dedupStep, hn] at hg0
        rcases mapInsert_groups_mem m n h0 g0 hg0 h hh0 with ⟨g1, hg1, hh1⟩ | rfl
        · exact Or.inl ⟨g1, hg1, hh1⟩
        · exact Or.inr ⟨List.mem_cons_self _ _, by rw [hn]; rfl⟩
    · exact Or.inr ⟨List.mem_cons_of_mem _ hmem, hsome⟩

/-- C6: the cursor invariant.  First, every handle handed to the qualify phase (that
is, every member of a group of the deduplicated map, at every recursion level) has its
cursor strictly inside its step list, so reading the current step is in bounds.
Second, FilterNodeSet never advances a cursor past the last step: after any call the
handle either is unchanged or still has its cursor strictly inside the step list (the
cursor is a Nat, so 0 is a lower bound by construction). -/
theorem C6_cursor_invariant :
    (∀ (subquery_handles : List SubqueryHandle) (g : String × List SubqueryHandle)
        (h : SubqueryHandle), g ∈ DeduplicateExpression subquery_handles → h ∈ g.2 →
        h.cursor < h.steps_in_redpath.length)
      ∧ (∀ (h : SubqueryHandle) (v : RedfishVariant),
          (h.FilterNodeSet v).2.cursor < h.steps_in_redpath.length
            ∨ (h.FilterNodeSet v).2 = h) := by
  constructor
  · intro hs g h hg hh
    rcases dedup_foldl_groups_mem hs [] g hg h hh with ⟨g0, hg0, _⟩ | ⟨_, hsome⟩
    · simp at hg0
    · exact nextNode_isSome_cursor_lt h hsome
  · intro h v
    unfold SubqueryHandle.FilterNodeSet
    split
    · exact Or.inr rfl
    · rename_i step hget
      split
      · exact Or.inr rfl
      · rename_i hpred
        have hne0 : h.steps_in_redpath ≠ [] := by
          intro e0
          rw [e0] at hget
          simp at hget
        have hlen1 : 0 < h.steps_in_redpath.length := List.length_pos.mpr hne0
        have hlt : h.cursor < h.steps_in_redpath.length := (List.get?_eq_some.mp hget).choose
        split
        · rename_i hlastnone
          exact absurd (List.getLast?_eq_none_iff.mp hlastnone) hne0
        · rename_i lastStep hlast
          split
          · exact Or.inr rfl
          · rename_i hname
            refine Or.inl ?_
            show h.cursor + 1 < h.steps_in_redpath.length
            have hcur_ne : h.cursor ≠ h.steps_in_redpath.length - 1 := by
              intro e
              have h1 : h.steps_in_redpath.getLast? =
                  some (h.steps_in_redpath.getLast hne0) :=
                List.getLast?_eq_getLast_of_ne_nil hne0
              rw [hlast] at h1
              have h2 : lastStep = h.steps_in_redpath.getLast hne0 := Option.some_inj.mp h1
              have h3 : h.steps_in_redpath.get? h.cursor
                  = h.steps_in_redpath[h.steps_in_redpath.length - 1]? := by
                rw [e, List.get?_eq_getElem?]
              rw [hget, List.getElem?_eq_getElem (by omega)] at h3
              have h4 : step = h.steps_in_redpath.getLast hne0 := by
                rw [List.getLast_eq_getElem]
                exact Option.some_inj.mp h3
              exact hname (by rw [h4, ← h2])
            omega

/-- Helper: an invalid handle reports no next node. -/
theorem invalid_nextNode_none (h : SubqueryHandle) :
    h.is_redpath_valid = false → h.NextNodeInRedpath = none := by
  intro hbad
  unfold SubqueryHandle.NextNodeInRedpath
  rw [hbad]
  simp

/-- C7: a subquery whose handle compilation fails is never added to the planner's
active set: the planner built from the query with the failed subquery removed is the
same planner, every active handle is valid, and execution produces exactly the result
it would produce were the failed subquery absent. -/
theorem C7_failed_subquery_inert : ∀ (query_id0 : String) (pre post : List Subquery)
    (sq : Subquery), (SubqueryHandle.ofSubquery sq).is_redpath_valid = false →
    QueryPlanner.ofQuery ⟨ query_id0, pre ++ sq :: post⟩
        = QueryPlanner.ofQuery ⟨ query_id0, pre ++ post⟩
      ∧ (∀ h ∈ (QueryPlanner.ofQuery ⟨ query_id0, pre ++ sq :: post⟩).subquery_handles,
          h.is_redpath_valid = true)
      ∧ ∀ (Record : Type) (normalize : RedfishVariant → Subquery → Option Record)
          (v : RedfishVariant) (clock : Nat → Int),
          (QueryPlanner.ofQuery ⟨ query_id0, pre ++ sq :: post⟩).Run normalize v clock
            = (QueryPlanner.ofQuery ⟨ query_id0, pre ++ post⟩).Run normalize v clock := by
  intro qid pre post sq hbad
  have hnext : (SubqueryHandle.ofSubquery sq).NextNodeInRedpath = none :=
    invalid_nextNode_none _ hbad
  have hplanner : QueryPlanner.ofQuery ⟨ qid, pre ++ sq :: post⟩
      = QueryPlanner.ofQuery ⟨ qid, pre ++ post⟩ := by
    unfold QueryPlanner.ofQuery
    simp [List.map_append, List.filter_append, hnext]
  refine ⟨hplanner, ?_, ?_⟩
  · intro h hh
    unfold QueryPlanner.ofQuery at hh
    simp only [List.mem_filter] at hh
    exact nextNode_isSome_valid h hh.2
  · intro Record normalize v clock
    rw [hplanner]

/-- C7 witness: a malformed subquery (redpath missing brackets) placed after a well
formed one leaves the planner identical to the planner of the well formed one alone. -/
theorem C7_failed_subquery_inert_witness :
    QueryPlanner.ofQuery ⟨ "q", [ ⟨ "g", "/A[*]"⟩, ⟨ "bad", "/A"⟩ ]⟩
      = QueryPlanner.ofQuery ⟨ "q", [ ⟨ "g", "/A[*]"⟩ ]⟩ :=
  (C7_failed_subquery_inert "q" [ ⟨ "g", "/A[*]"⟩ ] [] ⟨ "bad", "/A"⟩ (by decide)).1

/-- Acceptance test that path compilation applies to one step segment: the segment
parses (both brackets present) and the extracted predicate text is select-all. -/
def stepAccepted (seg : List Char) : Bool :=
  match GetNodeAndPredicate seg with
  | some node_x_predicate => decide (node_x_predicate.2 = kPredicateSelectAll)
  | none => false

/-- Helper: a found character index witnesses membership. -/
theorem findIdx_aux_mem : ∀ (s : List Char) (c : Char) (i start : Nat),
    List.findIdx? (fun a => a = c) s start = some i → c ∈ s := by
  intro s c
  induction s with
  | nil =>
    intro i start h
    rw [List.findIdx?_nil] at h
    cases h
  | cons a rest ih =>
    intro i start h
    rw [List.findIdx?_cons] at h
    by_cases ha : a = c
    · exact List.mem_cons.mpr (Or.inl ha.symm)
    · simp only [ha, decide_False, Bool.false_eq_true, if_false] at h
      exact List.mem_cons_of_mem _ (ih i (start + 1) h)

/-- Helper: find_first_of succeeding means the character occurs in the segment. -/
theorem findFirstOf_mem (s : List Char) (c : Char) (i : Nat) :
    findFirstOf s c = some i → c ∈ s := by
  intro h
  exact findIdx_aux_mem s c i 0 h

/-- Helper: step compilation succeeds exactly when every segment is accepted. -/
theorem compileSteps_isSome_iff : ∀ (segs : List (List Char)),
    (compileSteps segs).isSome = true ↔ ∀ seg ∈ segs, stepAccepted seg = true := by
  intro segs
  induction segs with
  | nil => simp [compileSteps]
  | cons seg rest ih =>
    simp only [compileSteps]
    cases hg : GetNodeAndPredicate seg with
    | none =>
      simp only [hg, Option.isSome_none]
      constructor
      · intro hfalse
        cases hfalse
      · intro hall
        have := hall seg (List.mem_cons_self _ _)
        rw [stepAccepted, hg] at this
        cases this
    | some np =>
      simp only [hg]
      by_cases hp : np.2 = kPredicateSelectAll
      · rw [if_pos hp]
        have hiso : (match compileSteps rest with
            | some steps => some ((String.mk np.1, ApplySelectAllFilter) :: steps)
            | none => none).isSome = (compileSteps rest).isSome := by
          cases compileSteps rest <;> rfl
        rw [hiso, ih]
        constructor
        · intro hall seg2 hseg2
          rcases List.mem_cons.mp hseg2 with rfl | h2
          · rw [stepAccepted, hg]
            simp [hp]
          · exact hall seg2 h2
        · intro hall seg2 h2
          exact hall seg2 (List.mem_cons_of_mem _ h2)
      · rw [if_neg hp]
        simp only [Option.isSome_none]
        constructor
        · intro hfalse
          cases hfalse
        · intro hall
          have := hall seg (List.mem_cons_self _ _)
          rw [stepAccepted, hg] at this
          simp [hp] at this

/-- C2 amended: path compilation accepts a step segment iff the segment contains both
a '[' and a ']' AND the predicate text extracted with the source's wrapping substr
arithmetic is select-all; the order of the brackets is NOT checked (see the
counterexample), so only segments missing a bracket or carrying a non-select-all
extracted predicate invalidate the handle, and invalid handles are the ones the
executor's active set omits (every active handle is valid). -/
theorem C2_amended_step_acceptance :
    (∀ sq : Subquery, (SubqueryHandle.ofSubquery sq).is_redpath_valid = true
        ↔ ∀ seg ∈ SplitSkipEmpty sq.redpath, stepAccepted seg = true)
      ∧ (∀ seg : List Char, stepAccepted seg = true → '[' ∈ seg ∧ ']' ∈ seg)
      ∧ (∀ sq : Subquery, (SubqueryHandle.ofSubquery sq).is_redpath_valid = false →
          (SubqueryHandle.ofSubquery sq).NextNodeInRedpath = none)
      ∧ (∀ q : DelliciusQuery, ∀ h ∈ (QueryPlanner.ofQuery q).subquery_handles,
          h.is_redpath_valid = true) := by
  refine ⟨?_, ?_, ?_, ?_⟩
  · intro sq
    have hval : (SubqueryHandle.ofSubquery sq).is_redpath_valid
        = (compileSteps (SplitSkipEmpty sq.redpath)).isSome := by
      unfold SubqueryHandle.ofSubquery
      cases compileSteps (SplitSkipEmpty sq.redpath) <;> rfl
    rw [hval]
    exact compileSteps_isSome_iff _
  · intro seg hacc
    rw [stepAccepted] at hacc
    cases hg : GetNodeAndPredicate seg with
    | none => rw [hg] at hacc; cases hacc
    | some np =>
      rw [GetNodeAndPredicate] at hg
      cases hopen : findFirstOf seg '[' with
      | none => rw [hopen] at hg; cases hclose : findFirstOf seg ']' <;> rw [hclose] at hg <;> cases hg
      | some i =>
        cases hclose : findFirstOf seg ']' with
        | none => rw [hopen, hclose] at hg; cases hg
        | some j =>
          exact ⟨findFirstOf_mem seg '[' i hopen, findFirstOf_mem seg ']' j hclose⟩
  · intro sq hbad
    exact invalid_nextNode_none _ hbad
  · intro q h hh
    unfold QueryPlanner.ofQuery at hh
    simp only [List.mem_filter] at hh
    exact nextNode_isSome_valid h hh.2

/-- C2 amended witness: the segment of redpath ]a[* is accepted (both brackets are
present even though misordered), and the handle built from it is valid. -/
theorem C2_amended_step_acceptance_witness :
    (∀ seg ∈ SplitSkipEmpty (Subquery.redpath ⟨ "s", "]a[*"⟩), stepAccepted seg = true)
      ∧ ('[' ∈ String.data "]a[*" ∧ ']' ∈ String.data "]a[*") := by
  constructor
  · exact (C2_amended_step_acceptance.1 ⟨ "s", "]a[*"⟩).mp (by decide)
  · exact C2_amended_step_acceptance.2.1 (String.data "]a[*") (by decide)

/-- Helper: qualifying a collection is the concatenation of qualifying each member
against the same handle list. -/
theorem qualifyCollection_flatten {Record : Type}
    (normalize : RedfishVariant → Subquery → Option Record)
    (recurse : RedfishVariant → List SubqueryHandle → List (String × Record))
    (handles : List SubqueryHandle) : ∀ (members : List RedfishVariant),
    QualifyCollection normalize recurse handles members
      = (members.map (fun member =>
          QualifyEachSubquery normalize recurse member handles)).flatten := by
  intro members
  induction members with
  | nil => rfl
  | cons m rest ih => simp [QualifyCollection, ih]

/-- Member of the C4 scenario: a plain object inside the array child. -/
def c4Member : RedfishVariant := RedfishVariant.mk true [] none

/-- Child of the C4 scenario: an iterable that is not an object (a raw JSON array). -/
def c4ArrayChild : RedfishVariant := RedfishVariant.mk false [] (some [ c4Member ])

/-- Root of the C4 scenario. -/
def c4Root : RedfishVariant := RedfishVariant.mk true [ ("A", c4ArrayChild) ] none

/-- Normalizer of the C4 scenario: always produces a record. -/
def c4Normalize : RedfishVariant → Subquery → Option Nat := fun _ _ => some 0

/-- C4 counterexample: the child A of the root is iterable (one member that would
qualify and emit a record) but is not an object, and Dispatch skips it: the run over
the query (s1, /A[*]) emits nothing, although qualifying the member against the
group's handles would emit a record.  The skip condition of the source is "AsObject()
is null", not "neither object nor iterable". -/
theorem C4_counterexample :
    ((QueryPlanner.ofQuery ⟨ "q", [ ⟨ "s1", "/A[*]"⟩ ]⟩).Run c4Normalize c4Root
        (fun _ => 0)).subquery_output = []
      ∧ c4Root.child "A" = some c4ArrayChild
      ∧ c4ArrayChild.isObj = false
      ∧ c4ArrayChild.iterableMembers.isSome = true
      ∧ QualifyEachSubquery c4Normalize (fun _ _ => []) c4Member
          (QueryPlanner.ofQuery ⟨ "q", [ ⟨ "s1", "/A[*]"⟩ ]⟩).subquery_handles
        = [ ("s1", 0) ] := by
  exact ⟨rfl, rfl, rfl, rfl, rfl⟩

/-- C4 amended: for each group of handles demanding the same node name, Dispatch skips
the group exactly when the fetched child is absent or not an object (even when it is
iterable); when the child is an object and iterable, every member of the collection is
qualified against the group's handles; when the child is an object and not iterable,
the singleton child itself is qualified. -/
theorem C4_amended_dispatch_behavior : ∀ (Record : Type)
    (normalize : RedfishVariant → Subquery → Option Record)
    (recurse : RedfishVariant → List SubqueryHandle → List (String × Record))
    (var : RedfishVariant) (resource_name : String) (handles : List SubqueryHandle)
    (rest : NodeToSubqueryHandles),
    (var.child resource_name = none →
        Dispatch normalize recurse var ((resource_name, handles) :: rest)
          = Dispatch normalize recurse var rest)
      ∧ (∀ variant, var.child resource_name = some variant → variant.isObj = false →
          Dispatch normalize recurse var ((resource_name, handles) :: rest)
            = Dispatch normalize recurse var rest)
      ∧ (∀ variant collection, var.child resource_name = some variant →
          variant.isObj = true → variant.iterableMembers = some collection →
          Dispatch normalize recurse var ((resource_name, handles) :: rest)
            = (collection.map (fun member =>
                QualifyEachSubquery normalize recurse member handles)).flatten
              ++ Dispatch normalize recurse var rest)
      ∧ (∀ variant, var.child resource_name = some variant → variant.isObj = true →
          variant.iterableMembers = none →
          Dispatch normalize recurse var ((resource_name, handles) :: rest)
            = QualifyEachSubquery normalize recurse variant handles
              ++ Dispatch normalize recurse var rest) := by
  intro Record normalize recurse var resource_name handles rest
  refine ⟨?_, ?_, ?_, ?_⟩
  · intro hchild
    simp [Dispatch, hchild]
  · intro variant hchild hobj
    simp [Dispatch, hchild, hobj]
  · intro variant collection hchild hobj hmem
    simp only [Dispatch, hchild, hobj]
    rw [if_neg (by simp)]
    simp only [hmem]
    rw [qualifyCollection_flatten]
  · intro variant hchild hobj hmem
    simp only [Dispatch, hchild, hobj]
    rw [if_neg (by simp)]
    simp only [hmem]

/-- Collection child of the C4 witness: an iterable that IS an object. -/
def c4ObjectCollection : RedfishVariant := RedfishVariant.mk true [] (some [ c4Member ])

/-- Root of the C4 witness scenario. -/
def c4Root2 : RedfishVariant := RedfishVariant.mk true [ ("A", c4ObjectCollection) ] none

/-- C4 amended witness: an object collection child is iterated, each member qualified
against the group's handles. -/
theorem C4_amended_dispatch_behavior_witness :
    Dispatch c4Normalize (fun _ _ => []) c4Root2
        [ ("A", [ SubqueryHandle.ofSubquery ⟨ "s1", "/A[*]"⟩ ]) ]
      = ([ c4Member ].map (fun member => QualifyEachSubquery c4Normalize (fun _ _ => [])
          member [ SubqueryHandle.ofSubquery ⟨ "s1", "/A[*]"⟩ ])).flatten
        ++ Dispatch c4Normalize (fun _ _ => []) c4Root2 [] := by
  exact (C4_amended_dispatch_behavior Nat c4Normalize (fun _ _ => []) c4Root2 "A"
    [ SubqueryHandle.ofSubquery ⟨ "s1", "/A[*]"⟩ ] []).2.2.1 c4ObjectCollection
    [ c4Member ] rfl rfl rfl

/-- In-place duplication of every element of a list. -/
def dupPairs {α : Type} : List α → List α
  | [] => []
  | a :: l => a :: a :: dupPairs l

/-- Helper: dupPairs distributes over append. -/
theorem dupPairs_append {α : Type} : ∀ (xs ys : List α),
    dupPairs (xs ++ ys) = dupPairs xs ++ dupPairs ys := by
  intro xs ys
  induction xs with
  | nil => rfl
  | cons a l ih => simp [dupPairs, ih]

/-- Helper: dupPairs commutes with filter. -/
theorem dupPairs_filter {α : Type} (p : α → Bool) : ∀ (l : List α),
    (dupPairs l).filter p = dupPairs (l.filter p) := by
  intro l
  induction l with
  | nil => rfl
  | cons a l ih =>
    by_cases hp : p a = true
    · simp [dupPairs, List.filter_cons, hp, ih]
    · simp [dupPairs, List.filter_cons, hp, ih]

/-- Helper: dupPairs doubles the length. -/
theorem dupPairs_length {α : Type} : ∀ (l : List α), (dupPairs l).length = 2 * l.length := by
  intro l
  induction l with
  | nil => rfl
  | cons a l ih =>
    simp only [dupPairs, List.length_cons, ih]
    omega

/-- Helper: qualifying two identical handle copies emits each record twice and, when
the copies survive, recurses on two identical advanced copies (given that the
recursion callback itself doubles on duplicated pairs). -/
theorem qualifyEach_pair {Record : Type} (normalize : RedfishVariant → Subquery → Option Record)
    (recurse : RedfishVariant → List SubqueryHandle → List (String × Record))
    (hrec : ∀ (v2 : RedfishVariant) (h2 : SubqueryHandle),
      recurse v2 [ h2, h2 ] = dupPairs (recurse v2 [ h2 ]))
    (var : RedfishVariant) (h : SubqueryHandle) :
    QualifyEachSubquery normalize recurse var [ h, h ]
      = dupPairs (QualifyEachSubquery normalize recurse var [ h ]) := by
  rcases hf : h.FilterNodeSet var with ⟨st, hadv⟩
  cases st with
  | kEndOfRedpath =>
    cases hnorm : normalize var h.subquery with
    | some d => simp [QualifyEachSubquery, QualifyLoop, hf, hnorm, dupPairs]
    | none => simp [QualifyEachSubquery, QualifyLoop, hf, hnorm, dupPairs]
  | kContinue =>
    simp [QualifyEachSubquery, QualifyLoop, hf, hrec var hadv, dupPairs]
  | kEndByPredicate =>
    simp [QualifyEachSubquery, QualifyLoop, hf, dupPairs]

/-- Helper: collection qualification over two identical handle copies. -/
theorem qualifyCollection_pair {Record : Type}
    (normalize : RedfishVariant → Subquery → Option Record)
    (recurse : RedfishVariant → List SubqueryHandle → List (String × Record))
    (hrec : ∀ (v2 : RedfishVariant) (h2 : SubqueryHandle),
      recurse v2 [ h2, h2 ] = dupPairs (recurse v2 [ h2 ]))
    (h : SubqueryHandle) : ∀ (members : List RedfishVariant),
    QualifyCollection normalize recurse [ h, h ] members
      = dupPairs (QualifyCollection normalize recurse [ h ] members) := by
  intro members
  induction members with
  | nil => rfl
  | cons m rest ih =>
    simp [QualifyCollection, qualifyEach_pair normalize recurse hrec m h, ih, dupPairs_append]

/-- Helper: dispatching a single group holding two identical handle copies. -/
theorem dispatch_single_pair {Record : Type}
    (normalize : RedfishVariant → Subquery → Option Record)
    (recurse : RedfishVariant → List SubqueryHandle → List (String × Record))
    (hrec : ∀ (v2 : RedfishVariant) (h2 : SubqueryHandle),
      recurse v2 [ h2, h2 ] = dupPairs (recurse v2 [ h2 ]))
    (v : RedfishVariant) (n : String) (h : SubqueryHandle) :
    Dispatch normalize recurse v [ (n, [ h, h ]) ]
      = dupPairs (Dispatch normalize recurse v [ (n, [ h ]) ]) := by
  simp only [Dispatch]
  cases hc : v.child n with
  | none => simp [dupPairs]
  | some variant =>
    by_cases hobj : variant.isObj = false
    · simp [hobj, dupPairs]
    · cases hm : variant.iterableMembers with
      | some collection =>
        simp [hobj, hm, qualifyCollection_pair normalize recurse hrec h collection]
      | none =>
        simp [hobj, hm, qualifyEach_pair normalize recurse hrec variant h]

/-- Helper: the recursive executor doubles its emission log on a duplicated handle
pair, at every fuel level. -/
theorem runRecursive_pair {Record : Type}
    (normalize : RedfishVariant → Subquery → Option Record) :
    ∀ (fuel : Nat) (v : RedfishVariant) (h : SubqueryHandle),
    RunRecursive normalize fuel v [ h, h ]
      = dupPairs (RunRecursive normalize fuel v [ h ]) := by
  intro fuel
  induction fuel with
  | zero => intro v h; rfl
  | succ fuel ih =>
    intro v h
    simp only [RunRecursive]
    cases hn : h.NextNodeInRedpath with
    | none =>
      have d2 : DeduplicateExpression [ h, h ] = [] := by
        simp [DeduplicateExpression, dedupStep, hn]
      have d1 : DeduplicateExpression [ h ] = [] := by
        simp [DeduplicateExpression, dedupStep, hn]
      rw [d2, d1]
      rfl
    | some n =>
      have d2 : DeduplicateExpression [ h, h ] = [ (n, [ h, h ]) ] := by
        simp [DeduplicateExpression, dedupStep, hn, mapInsert]
      have d1 : DeduplicateExpression [ h ] = [ (n, [ h ]) ] := by
        simp [DeduplicateExpression, dedupStep, hn, mapInsert]
      rw [d2, d1]
      simp only [List.isEmpty_cons, if_false]
      exact dispatch_single_pair normalize _ ih v n h

/-- Helper: the largest remaining step count of a duplicated pair equals that of the
single handle. -/
theorem maxStepsRemaining_pair (h : SubqueryHandle) :
    maxStepsRemaining [ h, h ] = maxStepsRemaining [ h ] := by
  show max (stepsRemaining h) (max (stepsRemaining h) 0) = max (stepsRemaining h) 0
  rw [← Nat.max_assoc, Nat.max_self]

/-- Helper: FilterNodeSet leaves the carried subquery untouched. -/
theorem filterNodeSet_subquery (h : SubqueryHandle) (v : RedfishVariant) :
    (h.FilterNodeSet v).2.subquery = h.subquery := by
  unfold SubqueryHandle.FilterNodeSet
  split
  · rfl
  · split
    · rfl
    · split
      · rfl
      · split <;> rfl

/-- Helper: every record the qualify loop emits carries the subquery id of one of the
qualified handles, and every surviving handle carries the subquery of one of them. -/
theorem qualifyLoop_ids {Record : Type} (normalize : RedfishVariant → Subquery → Option Record)
    (var : RedfishVariant) : ∀ (hs : List SubqueryHandle),
    (∀ e ∈ (QualifyLoop normalize var hs).1, ∃ h ∈ hs, e.1 = h.subquery.subquery_id)
      ∧ (∀ h2 ∈ (QualifyLoop normalize var hs).2, ∃ h ∈ hs, h2.subquery = h.subquery) := by
  intro hs
  induction hs with
  | nil =>
    constructor <;> intro e he <;> simp [QualifyLoop] at he
  | cons h rest ih =>
    rcases hf : h.FilterNodeSet var with ⟨st, hadv⟩
    have hadvsub : hadv.subquery = h.subquery := by
      have := filterNodeSet_subquery h var
      rw [hf] at this
      exact this
    cases st with
    | kEndOfRedpath =>
      cases hnorm : normalize var h.subquery with
      | some d =>
        constructor
        · intro e he
          simp only [QualifyLoop, hf, hnorm] at he
          rcases List.mem_cons.mp he with rfl | he2
          · exact ⟨h, List.mem_cons_self _ _, rfl⟩
          · rcases ih.1 e he2 with ⟨h0, hh0, hid⟩
            exact ⟨h0, List.mem_cons_of_mem _ hh0, hid⟩
        · intro h2 hh2
          simp only [QualifyLoop, hf, hnorm] at hh2
          rcases ih.2 h2 hh2 with ⟨h0, hh0, hsub⟩
          exact ⟨h0, List.mem_cons_of_mem _ hh0, hsub⟩
      | none =>
        constructor
        · intro e he
          simp only [QualifyLoop, hf, hnorm] at he
          rcases ih.1 e he with ⟨h0, hh0, hid⟩
          exact ⟨h0, List.mem_cons_of_mem _ hh0, hid⟩
        · intro h2 hh2
          simp only [QualifyLoop, hf, hnorm] at hh2
          rcases ih.2 h2 hh2 with ⟨h0, hh0, hsub⟩
          exact ⟨h0, List.mem_cons_of_mem _ hh0, hsub⟩
    | kContinue =>
      constructor
      · intro e he
        simp only [QualifyLoop, hf] at he
        rcases ih.1 e he with ⟨h0, hh0, hid⟩
        exact ⟨h0, List.mem_cons_of_mem _ hh0, hid⟩
      · intro h2 hh2
        simp only [QualifyLoop, hf] at hh2
        rcases List.mem_cons.mp hh2 with rfl | hh3
        · exact ⟨h, List.mem_cons_self _ _, hadvsub⟩
        · rcases ih.2 h2 hh3 with ⟨h0, hh0, hsub⟩
          exact ⟨h0, List.mem_cons_of_mem _ hh0, hsub⟩
    | kEndByPredicate =>
      constructor
      · intro e he
        simp only [QualifyLoop, hf] at he
        rcases ih.1 e he with ⟨h0, hh0, hid⟩
        exact ⟨h0, List.mem_cons_of_mem _ hh0, hid⟩
      · intro h2 hh2
        simp only [QualifyLoop, hf] at hh2
        rcases ih.2 h2 hh2 with ⟨h0, hh0, hsub⟩
        exact ⟨h0, List.mem_cons_of_mem _ hh0, hsub⟩

/-- Helper: records emitted by QualifyEachSubquery carry ids of the passed handles,
assuming the recursion callback does so for its handle list. -/
theorem qualifyEach_ids {Record : Type} (normalize : RedfishVariant → Subquery → Option Record)
    (recurse : RedfishVariant → List SubqueryHandle → List (String × Record))
    (hrec : ∀ (v2 : RedfishVariant) (hs2 : List SubqueryHandle) (e : String × Record),
      e ∈ recurse v2 hs2 → ∃ h ∈ hs2, e.1 = h.subquery.subquery_id)
    (var : RedfishVariant) (hs : List SubqueryHandle) :
    ∀ e ∈ QualifyEachSubquery normalize recurse var hs,
      ∃ h ∈ hs, e.1 = h.subquery.subquery_id := by
  intro e he
  simp only [QualifyEachSubquery] at he
  by_cases hq : (QualifyLoop normalize var hs).2.isEmpty = true
  · rw [if_pos hq] at he
    exact (qualifyLoop_ids normalize var hs).1 e he
  · rw [if_neg hq] at he
    rcases List.mem_append.mp he with hlog | hrecm
    · exact (qualifyLoop_ids normalize var hs).1 e hlog
    · rcases hrec var _ e hrecm with ⟨h2, hh2, hid⟩
      rcases (qualifyLoop_ids normalize var hs).2 h2 hh2 with ⟨h, hh, hsub⟩
      exact ⟨h, hh, by rw [hid, hsub]⟩

/-- Helper: records emitted by QualifyCollection carry ids of the passed handles. -/
theorem qualifyCollection_ids {Record : Type}
    (normalize : RedfishVariant → Subquery → Option Record)
    (recurse : RedfishVariant → List SubqueryHandle → List (String × Record))
    (hrec : ∀ (v2 : RedfishVariant) (hs2 : List SubqueryHandle) (e : String × Record),
      e ∈ recurse v2 hs2 → ∃ h ∈ hs2, e.1 = h.subquery.subquery_id)
    (hs : List SubqueryHandle) : ∀ (members : List RedfishVariant)
    (e : String × Record), e ∈ QualifyCollection normalize recurse hs members →
      ∃ h ∈ hs, e.1 = h.subquery.subquery_id := by
  intro members
  induction members with
  | nil =>
    intro e he
    simp [QualifyCollection] at he
  | cons m rest ih =>
    intro e he
    simp only [QualifyCollection] at he
    rcases List.mem_append.mp he with hm | hr
    · exact qualifyEach_ids normalize recurse hrec m hs e hm
    · exact ih e hr

/-- Helper: records emitted by Dispatch carry ids of handles of some group. -/
theorem dispatch_ids {Record : Type} (normalize : RedfishVariant → Subquery → Option Record)
    (recurse : RedfishVariant → List SubqueryHandle → List (String × Record))
    (hrec : ∀ (v2 : RedfishVariant) (hs2 : List SubqueryHandle) (e : String × Record),
      e ∈ recurse v2 hs2 → ∃ h ∈ hs2, e.1 = h.subquery.subquery_id)
    (var : RedfishVariant) : ∀ (m : NodeToSubqueryHandles) (e : String × Record),
    e ∈ Dispatch normalize recurse var m →
      ∃ g ∈ m, ∃ h ∈ g.2, e.1 = h.subquery.subquery_id := by
  intro m
  induction m with
  | nil =>
    intro e he
    simp [Dispatch] at he
  | cons g rest ih =>
    obtain ⟨n, hs⟩ := g
    intro e he
    simp only [Dispatch] at he
    rcases List.mem_append.mp he with hcontrib | hrest
    · split at hcontrib
      · simp at hcontrib
      · rename_i variant hc
        split at hcontrib
        · simp at hcontrib
        · split at hcontrib
          · rename_i collection hm
            rcases qualifyCollection_ids normalize recurse hrec hs collection e hcontrib
              with ⟨h, hh, hid⟩
            exact ⟨(n, hs), List.mem_cons_self _ _, h, hh, hid⟩
          · rcases qualifyEach_ids normalize recurse hrec variant hs e hcontrib
              with ⟨h, hh, hid⟩
            exact ⟨(n, hs), List.mem_cons_self _ _, h, hh, hid⟩
    · rcases ih e hrest with ⟨g0, hg0, h, hh, hid⟩
      exact ⟨g0, List.mem_cons_of_mem _ hg0, h, hh, hid⟩

/-- Helper: records emitted by the recursive executor carry ids of the active
handles. -/
theorem runRecursive_ids {Record : Type}
    (normalize : RedfishVariant → Subquery → Option Record) :
    ∀ (fuel : Nat) (v : RedfishVariant) (hs : List SubqueryHandle) (e : String × Record),
    e ∈ RunRecursive normalize fuel v hs → ∃ h ∈ hs, e.1 = h.subquery.subquery_id := by
  intro fuel
  induction fuel with
  | zero =>
    intro v hs e he
    simp [RunRecursive] at he
  | succ fuel ih =>
    intro v hs e he
    simp only [RunRecursive] at he
    by_cases hempty : (DeduplicateExpression hs).isEmpty = true
    · rw [if_pos hempty] at he
      simp at he
    · rw [if_neg hempty] at he
      rcases dispatch_ids normalize _ (fun v2 hs2 e2 he2 => ih v2 hs2 e2 he2) v
          (DeduplicateExpression hs) e he with ⟨g, hg, h2, hh2, hid⟩
      rcases dedup_foldl_groups_mem hs [] g hg h2 hh2 with ⟨g0, hg0, _⟩ | ⟨hmem, _⟩
      · simp at hg0
      · exact ⟨h2, hmem, hid⟩

/-- Helper: handle construction carries the subquery through. -/
theorem ofSubquery_subquery (s : Subquery) : (SubqueryHandle.ofSubquery s).subquery = s := by
  unfold SubqueryHandle.ofSubquery
  cases compileSteps (SplitSkipEmpty s.redpath) <;> rfl

/-- C8: duplicating a subquery (same id, same redpath, appearing twice as the whole
query) folds all records into the single bucket of that id: every emitted record
carries the duplicated subquery's id, and the bucket's record count is exactly twice
the count produced by the single-copy query. -/
theorem C8_duplicate_subquery_doubles : ∀ (Record : Type)
    (normalize : RedfishVariant → Subquery → Option Record) (qid : String) (s : Subquery)
    (v : RedfishVariant) (clock : Nat → Int),
    (((QueryPlanner.ofQuery ⟨ qid, [ s, s ]⟩).Run normalize v clock).outputById
        s.subquery_id).length
      = 2 * (((QueryPlanner.ofQuery ⟨ qid, [ s ]⟩).Run normalize v clock).outputById
        s.subquery_id).length
    ∧ ∀ e ∈ ((QueryPlanner.ofQuery ⟨ qid, [ s, s ]⟩).Run normalize v clock).subquery_output,
        e.1 = s.subquery_id := by
  intro Record normalize qid s v clock
  by_cases hn : (SubqueryHandle.ofSubquery s).NextNodeInRedpath.isSome = true
  · have hhandles2 : (QueryPlanner.ofQuery ⟨ qid, [ s, s ]⟩).subquery_handles
        = [ SubqueryHandle.ofSubquery s, SubqueryHandle.ofSubquery s ] := by
      simp [QueryPlanner.ofQuery, List.filter_cons, hn]
    have hhandles1 : (QueryPlanner.ofQuery ⟨ qid, [ s ]⟩).subquery_handles
        = [ SubqueryHandle.ofSubquery s ] := by
      simp [QueryPlanner.ofQuery, List.filter_cons, hn]
    have hrun : ((QueryPlanner.ofQuery ⟨ qid, [ s, s ]⟩).Run normalize v clock).subquery_output
        = dupPairs (((QueryPlanner.ofQuery ⟨ qid, [ s ]⟩).Run normalize v
            clock).subquery_output) := by
      simp only [QueryPlanner.Run, hhandles2, hhandles1,
        maxStepsRemaining_pair (SubqueryHandle.ofSubquery s)]
      exact runRecursive_pair normalize
        (maxStepsRemaining [ SubqueryHandle.ofSubquery s ] + 1) v
        (SubqueryHandle.ofSubquery s)
    constructor
    · unfold DelliciusQueryResult.outputById
      rw [List.length_map, List.length_map, hrun, dupPairs_filter, dupPairs_length]
    · intro e he
      have he2 : e ∈ RunRecursive normalize
          (maxStepsRemaining [ SubqueryHandle.ofSubquery s,
            SubqueryHandle.ofSubquery s ] + 1) v
          [ SubqueryHandle.ofSubquery s, SubqueryHandle.ofSubquery s ] := by
        simpa [QueryPlanner.Run, hhandles2] using he
      rcases runRecursive_ids normalize _ v _ e he2 with ⟨h, hh, hid⟩
      rcases List.mem_cons.mp hh with rfl | hh2
      · rw [hid, ofSubquery_subquery]
      · rcases List.mem_cons.mp hh2 with rfl | h3
        · rw [hid, ofSubquery_subquery]
        · cases h3
  · have hnf : (SubqueryHandle.ofSubquery s).NextNodeInRedpath.isSome = false :=
      Bool.not_eq_true _ |>.mp hn
    have hhandles2 : (QueryPlanner.ofQuery ⟨ qid, [ s, s ]⟩).subquery_handles = [] := by
      simp [QueryPlanner.ofQuery, List.filter_cons, hnf]
    have hhandles1 : (QueryPlanner.ofQuery ⟨ qid, [ s ]⟩).subquery_handles = [] := by
      simp [QueryPlanner.ofQuery, List.filter_cons, hnf]
    constructor
    · unfold DelliciusQueryResult.outputById
      simp [QueryPlanner.Run, hhandles2, hhandles1, RunRecursive, maxStepsRemaining,
        DeduplicateExpression]
    · intro e he
      simp [QueryPlanner.Run, hhandles2, RunRecursive, maxStepsRemaining,
        DeduplicateExpression] at he

/-- C8 witness: a concrete duplicated subquery over a singleton child produces the
doubled bucket count. -/
theorem C8_duplicate_subquery_doubles_witness :
    (((QueryPlanner.ofQuery ⟨ "q", [ ⟨ "s2", "/A[*]"⟩, ⟨ "s2", "/A[*]"⟩ ]⟩).Run
        (fun _ _ => some 0) (RedfishVariant.mk true
          [ ("A", RedfishVariant.mk true [] none) ] none)
        (fun _ => 0)).outputById "s2").length
      = 2 * (((QueryPlanner.ofQuery ⟨ "q", [ ⟨ "s2", "/A[*]"⟩ ]⟩).Run
        (fun _ _ => some (0 : Nat)) (RedfishVariant.mk true
          [ ("A", RedfishVariant.mk true [] none) ] none)
        (fun _ => 0)).outputById "s2").length :=
  (C8_duplicate_subquery_doubles Nat (fun _ _ => some 0) "q" ⟨ "s2", "/A[*]"⟩
    (RedfishVariant.mk true [ ("A", RedfishVariant.mk true [] none) ] none)
    (fun _ => 0)).1

/-- C6 witness: the concrete two-step handle reaches qualify through the deduplicated
map with its cursor in bounds, and FilterNodeSet keeps the bound. -/
theorem C6_cursor_invariant_witness :
    (SubqueryHandle.ofSubquery ⟨ "s", "/A[*]/B[*]"⟩).cursor
        < (SubqueryHandle.ofSubquery ⟨ "s", "/A[*]/B[*]"⟩).steps_in_redpath.length
      ∧ (((SubqueryHandle.ofSubquery ⟨ "s", "/A[*]/B[*]"⟩).FilterNodeSet
            (RedfishVariant.mk true [] none)).2.cursor
          < (SubqueryHandle.ofSubquery ⟨ "s", "/A[*]/B[*]"⟩).steps_in_redpath.length
        ∨ ((SubqueryHandle.ofSubquery ⟨ "s", "/A[*]/B[*]"⟩).FilterNodeSet
            (RedfishVariant.mk true [] none)).2
          = SubqueryHandle.ofSubquery ⟨ "s", "/A[*]/B[*]"⟩) := by
  constructor
  · have e : DeduplicateExpression [ SubqueryHandle.ofSubquery ⟨ "s", "/A[*]/B[*]"⟩ ]
        = [ ("A", [ SubqueryHandle.ofSubquery ⟨ "s", "/A[*]/B[*]"⟩ ]) ] := rfl
    exact C6_cursor_invariant.1 [ SubqueryHandle.ofSubquery ⟨ "s", "/A[*]/B[*]"⟩ ]
      ("A", [ SubqueryHandle.ofSubquery ⟨ "s", "/A[*]/B[*]"⟩ ])
      (SubqueryHandle.ofSubquery ⟨ "s", "/A[*]/B[*]"⟩)
      (by rw [e]; exact List.mem_singleton.mpr rfl)
      (List.mem_singleton.mpr rfl)
  · exact C6_cursor_invariant.2 (SubqueryHandle.ofSubquery ⟨ "s", "/A[*]/B[*]"⟩)
      (RedfishVariant.mk true [] none)
